import Mathlib

/-!
# Verification of the CODEOWNERS Status ownership-resolution core

Shallow embedding of the extension's core logic (`src/unnamed/part_001`, the
revision with the `allowMissingOwners` policy, freshness guard and `@anyone`
sentinel; `src/src/extension.ts` shares `findOwners`/`normalizePattern`
verbatim): the CODEOWNERS parser (`parseCodeownersContent`, `isValidPattern`,
`isValidOwners`), the resolver (`findOwners`, `normalizePattern`), and the
loader (`loadCodeowners`, `shouldReloadCodeowners`, `findCodeownersFile`,
`readCodeownersFile`).

JavaScript strings are modelled as Lean `String`s and the JS string
operations used by the source (`trim`, `startsWith`, `endsWith`, `slice(1)`,
`split`) are defined character-wise below.  The third-party `minimatch`
glob engine is not part of the repository; where a claim needs a concrete
matcher it is modelled from the spec's stated external capability
(`match(path, pattern) → bool` with shell-glob `*`, `**`, `?` and
`dot: true` semantics); elsewhere the matcher is an arbitrary injected
function, with `none` standing for a thrown matching error.
-/

namespace CodeownersStatus

/-- The whitespace characters trimmed and split on (JS `\s` on the ASCII range). -/
def isWs (c : Char) : Bool := c = ' ' || c = '\t' || c = '\n' || c = '\r'

/-- Character-wise model of JS `String.prototype.trim`. -/
def trimChars (cs : List Char) : List Char :=
  ((cs.dropWhile isWs).reverse.dropWhile isWs).reverse

/-- JS `s.trim()`. -/
def jsTrim (s : String) : String := ⟨trimChars s.data⟩

/-- JS `s.startsWith(pre)`. -/
def jsStartsWith (s pre : String) : Bool := pre.data.isPrefixOf s.data

/-- JS `s.endsWith(suf)`. -/
def jsEndsWith (s suf : String) : Bool := suf.data.isSuffixOf s.data

/-- Split a character list at every character satisfying `p` (separators are
consumed; empty chunks are kept, as in JS `split` on a single character). -/
def splitOnP (p : Char → Bool) : List Char → List (List Char)
  | [] => [[]]
  | c :: cs =>
    if p c then [] :: splitOnP p cs
    else
      match splitOnP p cs with
      | [] => [[c]]
      | s :: ss => (c :: s) :: ss

/-- JS `content.split("\n")`. -/
def jsLines (content : String) : List String :=
  (splitOnP (fun c => c == '\n') content.data).map fun cs => (⟨cs⟩ : String)

/-- JS `line.split(/\s+/)` on an already-trimmed line: maximal runs of
non-whitespace characters (a trimmed string yields no empty tokens, so
dropping empty chunks is exact). -/
def wsTokens (s : String) : List String :=
  ((splitOnP isWs s.data).filter fun t => !t.isEmpty).map fun cs => (⟨cs⟩ : String)

/-- One successfully parsed CODEOWNERS line (`interface Rule`). -/
structure Rule where
  pattern : String
  owners : List String
  lineNumber : Nat
  filePath : String
deriving DecidableEq

/-- The character allow-list of `isValidPattern`'s regex
`^[a-zA-Z0-9\/\*\?\.\-_]+$`. -/
def allowedPatternChar (c : Char) : Bool :=
  c.isAlpha || c.isDigit || c = '/' || c = '*' || c = '?' || c = '.' || c = '-' || c = '_'

/-- `isValidPattern`: non-empty, non-empty after trim, and every character in
the allow-list (the regex `+` also forces non-emptiness). -/
def isValidPattern (pattern : String) : Bool :=
  !pattern.data.isEmpty && !(jsTrim pattern).data.isEmpty && pattern.data.all allowedPatternChar

/-- `isValidOwners`: a non-empty list in which every owner token is non-empty
after trim and contains `'@'`. -/
def isValidOwners (owners : List String) : Bool :=
  !owners.isEmpty &&
    owners.all fun owner => !(jsTrim owner).data.isEmpty && owner.data.contains '@'

/-- The line loop of `parseCodeownersContent`: `idx` is the 0-based index of
the first line of the remaining list; accepted rules record `idx + 1`.
The `[]` token case models `pattern === undefined` after destructuring an
empty split, which `isValidPattern` rejects. -/
def parseLines (allowMissingOwners : Bool) (codeownersFilePath : String) :
    Nat → List String → List Rule
  | _, [] => []
  | idx, l :: ls =>
    let line := jsTrim l
    if line.data.isEmpty || jsStartsWith line "#" then
      parseLines allowMissingOwners codeownersFilePath (idx + 1) ls
    else
      match wsTokens line with
      | [] => parseLines allowMissingOwners codeownersFilePath (idx + 1) ls
      | pattern :: owners =>
        if !isValidPattern pattern then
          parseLines allowMissingOwners codeownersFilePath (idx + 1) ls
        else if owners.isEmpty then
          if allowMissingOwners then
            ⟨pattern, [], idx + 1, codeownersFilePath⟩ ::
              parseLines allowMissingOwners codeownersFilePath (idx + 1) ls
          else
            parseLines allowMissingOwners codeownersFilePath (idx + 1) ls
        else if !isValidOwners owners then
          parseLines allowMissingOwners codeownersFilePath (idx + 1) ls
        else
          ⟨pattern, owners, idx + 1, codeownersFilePath⟩ ::
            parseLines allowMissingOwners codeownersFilePath (idx + 1) ls

/-- `parseCodeownersContent`: `none` models the `throw` on falsy content
(caught by `loadCodeowners`, leaving the already-cleared rules in place);
otherwise the rules pushed by the line loop, in file order. -/
def parseCodeownersContent (allowMissingOwners : Bool) (content codeownersFilePath : String) :
    Option (List Rule) :=
  if content.data.isEmpty then none
  else some (parseLines allowMissingOwners codeownersFilePath 0 (jsLines content))

/-- `normalizePattern`: trim, strip one leading `/`, and append `**` to a
trailing `/`.  The source's catch branch (returning the pattern unchanged)
fires only for the empty string, on which this computation is also the
identity, so the happy path is total. -/
def normalizePattern (pattern : String) : String :=
  let p := jsTrim pattern
  let p := if jsStartsWith p "/" then (⟨p.data.drop 1⟩ : String) else p
  if jsEndsWith p "/" then p ++ "**" else p

/-- One iteration of the `findOwners` scan.  The matcher `m` is the injected
glob capability; `m relative pat = none` models `minimatch` throwing, in
which case the `catch` leaves the accumulated state untouched.  State:
(`matchedOwners`, `hasMatchedPattern`, `currentMatchedRule`). -/
def scanRule (m : String → String → Option Bool) (relative : String)
    (st : List String × Bool × Option Rule) (rule : Rule) :
    List String × Bool × Option Rule :=
  match m relative (normalizePattern rule.pattern) with
  | some true => (rule.owners, true, some rule)
  | _ => st

/-- `findOwners`, with the workspace-relative path precomputed (the
`path.relative` call is host glue).  Scans the whole rule list, last match
winning; a matched rule with no owners yields the `['@anyone']` sentinel. -/
def findOwners (m : String → String → Option Bool) (rules : List Rule)
    (relative : String) : List String :=
  if rules.isEmpty then []
  else if relative.data.isEmpty || jsStartsWith relative ".." then []
  else
    let st := rules.foldl (scanRule m relative) ([], false, none)
    if st.2.1 && st.1.isEmpty then ["@anyone"] else st.1

/-- Modelled from the spec: one path-segment of the external glob matcher
(`minimatch` is a third-party dependency, absent from `src/`); `*` matches
any run of characters inside the segment, `?` exactly one character,
anything else itself.  `dot: true` semantics: no special-casing of a
leading `.`. -/
def segMatch : List Char → List Char → Bool
  | [], s => s.isEmpty
  | c :: ps, s =>
    if c = '*' then
      segMatch ps s ||
        match s with
        | [] => false
        | _ :: t => segMatch (c :: ps) t
    else
      match s with
      | [] => false
      | d :: t => if c = '?' then segMatch ps t else c == d && segMatch ps t
termination_by p s => p.length + s.length

/-- Modelled from the spec: segment-list matching of the external glob
matcher; a `**` pattern segment matches any number of path segments. -/
def globSegs : List (List Char) → List (List Char) → Bool
  | [], ss => ss.isEmpty
  | p :: ps, ss =>
    if p = ['*', '*'] then
      match ss with
      | [] => globSegs ps []
      | s :: ss1 => globSegs ps (s :: ss1) || globSegs (p :: ps) ss1
    else
      match ss with
      | [] => false
      | s :: ss1 => segMatch p s && globSegs ps ss1
termination_by p s => p.length + s.length

/-- Split on `/` path separators. -/
def splitSlash (cs : List Char) : List (List Char) := splitOnP (fun c => c == '/') cs

/-- Modelled from the spec: `minimatch(path, pattern, { dot: true })` as a
pure function of the `/`-separated segments of path and pattern. -/
def minimatchModel (path pattern : String) : Bool :=
  globSegs (splitSlash pattern.data) (splitSlash path.data)

/-- The facts `isValidCodeownersFile` observes about one path (`existsSync`,
`statSync().isFile()`, `accessSync(R_OK)` not throwing). -/
structure FileStat where
  fileExists : Bool
  isFile : Bool
  isReadable : Bool

/-- Model of Node `path.join(a, b)`. -/
def pathJoin (a b : String) : String := a ++ "/" ++ b

/-- `isValidCodeownersFile`: exists, is a regular file, and is readable
(any of the underlying calls throwing yields `false` via the catch). -/
def isValidCodeownersFile (fsStat : String → FileStat) (filePath : String) : Bool :=
  (fsStat filePath).fileExists && (fsStat filePath).isFile && (fsStat filePath).isReadable

/-- The `for` loop of `findCodeownersFile`: first valid candidate. -/
def firstValidCodeownersFile (fsStat : String → FileStat) : List String → Option String
  | [] => none
  | p :: ps =>
    if isValidCodeownersFile fsStat p then some p else firstValidCodeownersFile fsStat ps

/-- The `possiblePaths` array of `findCodeownersFile`, in source order. -/
def codeownersCandidates (rootPath : String) (additionalCodeownersPaths : List String) :
    List String :=
  [pathJoin rootPath "CODEOWNERS", pathJoin (pathJoin rootPath ".github") "CODEOWNERS"]
    ++ additionalCodeownersPaths.map (pathJoin rootPath)

/-- `findCodeownersFile`. -/
def findCodeownersFile (fsStat : String → FileStat) (rootPath : String)
    (additionalCodeownersPaths : List String) : Option String :=
  firstValidCodeownersFile fsStat (codeownersCandidates rootPath additionalCodeownersPaths)

/-- `shouldReloadCodeowners`: `currentMtime = none` models `statSync`
throwing, in which case the catch returns `true` (fail open). -/
def shouldReloadCodeowners (currentMtime : Option Nat) (lastCodeownersModified : Nat) : Bool :=
  match currentMtime with
  | some t => decide (t > lastCodeownersModified)
  | none => true

/-- The 10 MiB size cap of `readCodeownersFile`. -/
def maxCodeownersSize : Nat := 10 * 1024 * 1024

/-- `readCodeownersFile`: `rawRead = none` models `readFileSync` throwing;
empty content and over-cap content both come back as `none` (the oversize
throw is caught by the function's own catch). -/
def readCodeownersFile (rawRead : Option String) : Option String :=
  match rawRead with
  | none => none
  | some fileContent =>
    if fileContent.data.isEmpty then none
    else if decide (fileContent.data.length > maxCodeownersSize) then none
    else some fileContent

/-- The mutable fields of `CodeownersExtension` that `loadCodeowners`
touches: the cached rules and the freshness timestamp. -/
structure LoaderState where
  rules : List Rule
  lastCodeownersModified : Nat
deriving DecidableEq

/-- The external world one `loadCodeowners` call observes: workspace
validity, the filesystem for candidate search, the stat/read results for
the chosen file, the configuration, and `Date.now()`. -/
structure LoadEnv where
  workspaceValid : Bool
  fsStat : String → FileStat
  rootPath : String
  additionalCodeownersPaths : List String
  allowMissingOwners : Bool
  currentMtime : Option Nat
  rawRead : Option String
  now : Nat

/-- `loadCodeowners` as a state transformer.  Note the source clears
`this.rules` first, so every early return leaves the rules empty; only a
full successful parse repopulates them and records `Date.now()`. -/
def loadCodeowners (env : LoadEnv) (st : LoaderState) : LoaderState :=
  let cleared : LoaderState := { st with rules := [] }
  if !env.workspaceValid then cleared
  else
    match findCodeownersFile env.fsStat env.rootPath env.additionalCodeownersPaths with
    | none => cleared
    | some codeownersPath =>
      if !shouldReloadCodeowners env.currentMtime st.lastCodeownersModified then cleared
      else
        match readCodeownersFile env.rawRead with
        | none => cleared
        | some fileContent =>
          match parseCodeownersContent env.allowMissingOwners fileContent codeownersPath with
          | none => cleared
          | some rules => { rules := rules, lastCodeownersModified := env.now }

/-! ## Supporting lemmas -/

theorem data_isEmpty_false_iff (s : String) : s.data.isEmpty = false ↔ s ≠ "" := by
  simp [List.isEmpty_iff, String.ext_iff]

theorem dropWhile_eq_self_of_all {α : Type} (p : α → Bool) (l : List α)
    (h : ∀ a ∈ l, p a = false) : l.dropWhile p = l := by
  cases l with
  | nil => rfl
  | cons a t => simp [List.dropWhile_cons, h a (List.mem_cons_self a t)]

theorem trimChars_eq_self (cs : List Char) (h : ∀ c ∈ cs, isWs c = false) :
    trimChars cs = cs := by
  unfold trimChars
  rw [dropWhile_eq_self_of_all _ _ h, dropWhile_eq_self_of_all, List.reverse_reverse]
  intro c hc
  exact h c (List.mem_reverse.mp hc)

theorem splitOnP_single (p : Char → Bool) (cs : List Char) (h : ∀ c ∈ cs, p c = false) :
    splitOnP p cs = [cs] := by
  induction cs with
  | nil => rfl
  | cons c t ih =>
    have ht : splitOnP p t = [t] := ih fun d hd => h d (List.mem_cons_of_mem c hd)
    simp [splitOnP, h c (List.mem_cons_self c t), ht]

theorem wsTokens_of_data_nil (s : String) (h : s.data = []) : wsTokens s = [] := by
  simp [wsTokens, h, splitOnP]

theorem jsLines_single (l : String) (h : ∀ c ∈ l.data, c ≠ '\n') : jsLines l = [l] := by
  have hs : splitOnP (fun c => c == '\n') l.data = [l.data] :=
    splitOnP_single _ _ fun c hc => by simpa using h c hc
  simp [jsLines, hs]

/-- If a non-empty line splits into at least one token, neither the trimmed
line nor the line itself is empty. -/
theorem line_nonempty_of_tokens (l : String) (toks : List String)
    (h : wsTokens (jsTrim l) = toks) (hne : toks ≠ []) :
    (jsTrim l).data.isEmpty = false ∧ l.data.isEmpty = false := by
  have h1 : (jsTrim l).data.isEmpty = false := by
    cases hd : (jsTrim l).data.isEmpty
    · rfl
    · have hddd : (jsTrim l).data = [] := List.isEmpty_iff.mp hd
      rw [wsTokens_of_data_nil _ hddd] at h
      exact absurd h.symm hne
  refine ⟨h1, ?_⟩
  cases hd : l.data.isEmpty
  · rfl
  · have hl : l.data = [] := List.isEmpty_iff.mp hd
    have hjd : (jsTrim l).data = [] := by simp [jsTrim, trimChars, hl]
    rw [hjd] at h1
    simp at h1

theorem scanRule_no_match (m : String → String → Option Bool) (rel : String)
    (st : List String × Bool × Option Rule) (a : Rule)
    (h : ¬m rel (normalizePattern a.pattern) = some true) :
    scanRule m rel st a = st := by
  unfold scanRule
  cases hm : m rel (normalizePattern a.pattern) with
  | none => rfl
  | some b =>
    cases b with
    | true => exact absurd hm h
    | false => rfl

theorem scanRule_none (m : String → String → Option Bool) (rel : String)
    (st : List String × Bool × Option Rule) (a : Rule)
    (h : m rel (normalizePattern a.pattern) = none) :
    scanRule m rel st a = st := by
  simp [scanRule, h]

/-- The scan of `findOwners` is determined by the last rule whose normalized
pattern the matcher accepts: no rule is skipped, and every later accepted
rule overwrites the state. -/
theorem scan_foldl (m : String → String → Option Bool) (rel : String)
    (st : List String × Bool × Option Rule) (rules : List Rule) :
    rules.foldl (scanRule m rel) st
      = match (rules.filter fun rr =>
            decide (m rel (normalizePattern rr.pattern) = some true)).getLast? with
        | none => st
        | some r => (r.owners, true, some r) := by
  induction rules using List.reverseRecOn with
  | nil => rfl
  | append_singleton l a ih =>
    rw [List.foldl_append, List.filter_append]
    by_cases hm : m rel (normalizePattern a.pattern) = some true
    · have hstep : List.foldl (scanRule m rel) (List.foldl (scanRule m rel) st l) [a]
          = (a.owners, true, some a) := by
        simp [List.foldl, scanRule, hm]
      have hfa : List.filter (fun rr =>
          decide (m rel (normalizePattern rr.pattern) = some true)) [a] = [a] := by
        simp [List.filter, hm]
      rw [hstep, hfa, List.getLast?_concat]
    · have hstep : List.foldl (scanRule m rel) (List.foldl (scanRule m rel) st l) [a]
          = List.foldl (scanRule m rel) st l := by
        simp [List.foldl, scanRule_no_match m rel _ a hm]
      have hfa : List.filter (fun rr =>
          decide (m rel (normalizePattern rr.pattern) = some true)) [a] = [] := by
        simp [List.filter, hm]
      rw [hstep, hfa, List.append_nil, ih]

/-! ## Claim theorems -/

/-- C1: for every rule set, matcher and in-workspace query path, `findOwners`
scans the entire rule list with no early exit, and its result reflects the
owners of the rule occurring latest in file order among all rules whose
normalized pattern matches the relative path (``['@anyone']`` when that
rule's owners are empty), regardless of pattern specificity — the matcher
`m` is arbitrary, so no specificity ordering can influence the result. -/
theorem claim_c1 (m : String → String → Option Bool) (rules : List Rule) (rel : String)
    (r : Rule) (hrel1 : rel.data.isEmpty = false) (hrel2 : jsStartsWith rel ".." = false)
    (hlast : (rules.filter fun rr =>
        decide (m rel (normalizePattern rr.pattern) = some true)).getLast? = some r) :
    findOwners m rules rel = if r.owners.isEmpty then ["@anyone"] else r.owners := by
  have hne : rules ≠ [] := by
    intro hnil
    subst hnil
    simp at hlast
  have hre : rules.isEmpty = false := by simp [List.isEmpty_iff, hne]
  simp only [findOwners, hre, hrel1, hrel2, Bool.false_or, Bool.or_self, if_false,
    Bool.false_eq_true, ite_false]
  rw [scan_foldl, hlast]
  simp

/-- C7: a query whose path relative to the repository root is empty or
begins with a parent-directory traversal resolves to the empty owners
result (`NoMatch`), for every rule set and matcher — no rule is consulted. -/
theorem claim_c7 (m : String → String → Option Bool) (rules : List Rule) (rel : String)
    (h : rel = "" ∨ jsStartsWith rel ".." = true) :
    findOwners m rules rel = [] := by
  rcases h with h | h
  · subst h
    simp [findOwners]
  · simp [findOwners, h]

/-- C8: a matching failure (`minimatch` throwing, modelled as the matcher
returning `none`) on one rule skips exactly that rule for that query: the
scan continues over the remaining rules and the result is the one computed
from the rule list without the failing rule, so the resolver still produces
a result even for a partially malformed rule file. -/
theorem claim_c8 (m : String → String → Option Bool) (rs₁ rs₂ : List Rule) (r : Rule)
    (rel : String) (hfail : m rel (normalizePattern r.pattern) = none) :
    findOwners m (rs₁ ++ r :: rs₂) rel = findOwners m (rs₁ ++ rs₂) rel := by
  by_cases hnil : rs₁ ++ rs₂ = []
  · obtain ⟨h1, h2⟩ := List.append_eq_nil.mp hnil
    subst h1
    subst h2
    simp [findOwners, scanRule_none m rel _ r hfail]
  · have hA : (rs₁ ++ r :: rs₂).isEmpty = false := by simp
    have hB : (rs₁ ++ rs₂).isEmpty = false := by simp [List.isEmpty_iff, hnil]
    have hscan : (rs₁ ++ r :: rs₂).foldl (scanRule m rel) ([], false, none)
        = (rs₁ ++ rs₂).foldl (scanRule m rel) ([], false, none) := by
      rw [List.foldl_append, List.foldl_append, List.foldl_cons,
        scanRule_none m rel _ r hfail]
    simp only [findOwners, hA, hB]
    rw [hscan]

/-- C10: when the last matching rule has an empty owners list the public
lookup result is the sentinel `['@anyone']`; consequently a rule whose
single owner token is literally `'@anyone'` is indistinguishable, through
`findOwners`, from an owner-less rule accepted under the missing-owners
policy, at any position in the rule list and for every query. -/
theorem claim_c10 (m : String → String → Option Bool) (rules : List Rule) (rel : String)
    (hrel1 : rel.data.isEmpty = false) (hrel2 : jsStartsWith rel ".." = false) :
    (∀ r : Rule,
      (rules.filter fun rr =>
          decide (m rel (normalizePattern rr.pattern) = some true)).getLast? = some r →
        r.owners = [] → findOwners m rules rel = ["@anyone"])
    ∧ ∀ (rs₁ rs₂ : List Rule) (pat fp : String) (ln : Nat),
        findOwners m (rs₁ ++ (⟨pat, [], ln, fp⟩ : Rule) :: rs₂) rel
          = findOwners m (rs₁ ++ (⟨pat, ["@anyone"], ln, fp⟩ : Rule) :: rs₂) rel := by
  constructor
  · intro r hlast ho
    have hne : rules ≠ [] := by
      intro hnil
      subst hnil
      simp at hlast
    have hre : rules.isEmpty = false := by simp [List.isEmpty_iff, hne]
    simp only [findOwners, hre, hrel1, hrel2, Bool.false_or, Bool.or_self, if_false,
      Bool.false_eq_true, ite_false]
    rw [scan_foldl, hlast]
    simp [ho]
  · intro rs₁ rs₂ pat fp ln
    have hA : (rs₁ ++ (⟨pat, [], ln, fp⟩ : Rule) :: rs₂).isEmpty = false := by simp
    have hB : (rs₁ ++ (⟨pat, ["@anyone"], ln, fp⟩ : Rule) :: rs₂).isEmpty = false := by simp
    by_cases hm : m rel (normalizePattern pat) = some true
    · have hf1 : (rs₁ ++ (⟨pat, [], ln, fp⟩ : Rule) :: rs₂).filter
            (fun rr => decide (m rel (normalizePattern rr.pattern) = some true))
          = rs₁.filter (fun rr => decide (m rel (normalizePattern rr.pattern) = some true))
              ++ (⟨pat, [], ln, fp⟩ : Rule) :: rs₂.filter
                (fun rr => decide (m rel (normalizePattern rr.pattern) = some true)) := by
        simp [List.filter_append, List.filter_cons, hm]
      have hf2 : (rs₁ ++ (⟨pat, ["@anyone"], ln, fp⟩ : Rule) :: rs₂).filter
            (fun rr => decide (m rel (normalizePattern rr.pattern) = some true))
          = rs₁.filter (fun rr => decide (m rel (normalizePattern rr.pattern) = some true))
              ++ (⟨pat, ["@anyone"], ln, fp⟩ : Rule) :: rs₂.filter
                (fun rr => decide (m rel (normalizePattern rr.pattern) = some true)) := by
        simp [List.filter_append, List.filter_cons, hm]
      rcases List.eq_nil_or_concat (rs₂.filter fun rr =>
          decide (m rel (normalizePattern rr.pattern) = some true)) with h2 | ⟨t, b, h2⟩
      · have g1 : ((rs₁ ++ (⟨pat, [], ln, fp⟩ : Rule) :: rs₂).filter
              (fun rr => decide (m rel (normalizePattern rr.pattern) = some true))).getLast?
            = some (⟨pat, [], ln, fp⟩ : Rule) := by
          rw [hf1, h2, List.getLast?_concat]
        have g2 : ((rs₁ ++ (⟨pat, ["@anyone"], ln, fp⟩ : Rule) :: rs₂).filter
              (fun rr => decide (m rel (normalizePattern rr.pattern) = some true))).getLast?
            = some (⟨pat, ["@anyone"], ln, fp⟩ : Rule) := by
          rw [hf2, h2, List.getLast?_concat]
        simp only [findOwners, hA, hB, hrel1, hrel2, Bool.false_or, Bool.or_self, if_false,
          Bool.false_eq_true, ite_false]
        rw [scan_foldl, scan_foldl, g1, g2]
        simp
      · rw [List.concat_eq_append] at h2
        have g1 : ((rs₁ ++ (⟨pat, [], ln, fp⟩ : Rule) :: rs₂).filter
              (fun rr => decide (m rel (normalizePattern rr.pattern) = some true))).getLast?
            = some b := by
          rw [hf1, h2,
            show rs₁.filter (fun rr => decide (m rel (normalizePattern rr.pattern) = some true))
                ++ (⟨pat, [], ln, fp⟩ : Rule) :: (t ++ [b])
              = (rs₁.filter (fun rr => decide (m rel (normalizePattern rr.pattern) = some true))
                ++ (⟨pat, [], ln, fp⟩ : Rule) :: t) ++ [b] from by simp,
            List.getLast?_concat]
        have g2 : ((rs₁ ++ (⟨pat, ["@anyone"], ln, fp⟩ : Rule) :: rs₂).filter
              (fun rr => decide (m rel (normalizePattern rr.pattern) = some true))).getLast?
            = some b := by
          rw [hf2, h2,
            show rs₁.filter (fun rr => decide (m rel (normalizePattern rr.pattern) = some true))
                ++ (⟨pat, ["@anyone"], ln, fp⟩ : Rule) :: (t ++ [b])
              = (rs₁.filter (fun rr => decide (m rel (normalizePattern rr.pattern) = some true))
                ++ (⟨pat, ["@anyone"], ln, fp⟩ : Rule) :: t) ++ [b] from by simp,
            List.getLast?_concat]
        simp only [findOwners, hA, hB]
        rw [scan_foldl, scan_foldl, g1, g2]
    · have hfilt : (rs₁ ++ (⟨pat, [], ln, fp⟩ : Rule) :: rs₂).filter
            (fun rr => decide (m rel (normalizePattern rr.pattern) = some true))
          = (rs₁ ++ (⟨pat, ["@anyone"], ln, fp⟩ : Rule) :: rs₂).filter
            (fun rr => decide (m rel (normalizePattern rr.pattern) = some true)) := by
        simp [List.filter_append, List.filter_cons, hm]
      simp only [findOwners, hA, hB]
      rw [scan_foldl, scan_foldl, hfilt]

/-- C2: a line consisting of a valid pattern and zero owner tokens is
accepted as a rule with empty owners exactly when `allowMissingOwners` is
enabled — in which case a matching query resolves to the `Unowned` outcome
(`['@anyone']`) — and is discarded when the policy is disabled, in which
case the same query resolves to `NoMatch` (`[]`) against the resulting
empty rule set. -/
theorem claim_c2 (l p f rel : String) (m : String → String → Option Bool)
    (hnl : ∀ c ∈ l.data, c ≠ '\n')
    (hhash : jsStartsWith (jsTrim l) "#" = false)
    (hsplit : wsTokens (jsTrim l) = [p])
    (hpat : isValidPattern p = true)
    (hm : m rel (normalizePattern p) = some true)
    (hrel1 : rel.data.isEmpty = false)
    (hrel2 : jsStartsWith rel ".." = false) :
    parseCodeownersContent true l f = some [⟨p, [], 1, f⟩]
    ∧ parseCodeownersContent false l f = some []
    ∧ findOwners m [⟨p, [], 1, f⟩] rel = ["@anyone"]
    ∧ findOwners m [] rel = [] := by
  obtain ⟨htne, hlne⟩ := line_nonempty_of_tokens l [p] hsplit (by simp)
  have hlines : jsLines l = [l] := jsLines_single l hnl
  have hparse : ∀ b : Bool,
      parseLines b f 0 [l] = if b then [⟨p, [], 1, f⟩] else [] := by
    intro b
    simp [parseLines, htne, hhash, hsplit, hpat]
  refine ⟨?_, ?_, ?_, rfl⟩
  · simp [parseCodeownersContent, hlne, hlines, hparse true]
  · simp [parseCodeownersContent, hlne, hlines, hparse false]
  · simp [findOwners, hrel1, hrel2, scanRule, hm]

/-- C9: a line with a valid pattern and a non-empty owners token list
becomes a rule exactly when every owner token is non-empty after trimming
and contains `'@'`; if any token fails the check the whole line is
discarded and contributes no rule, whatever the missing-owners policy. -/
theorem claim_c9 (b : Bool) (l p f : String) (os : List String)
    (hnl : ∀ c ∈ l.data, c ≠ '\n')
    (hhash : jsStartsWith (jsTrim l) "#" = false)
    (hsplit : wsTokens (jsTrim l) = p :: os)
    (hpat : isValidPattern p = true)
    (hos : os ≠ []) :
    (parseCodeownersContent b l f = some [⟨p, os, 1, f⟩]
      ↔ ∀ o ∈ os, jsTrim o ≠ "" ∧ o.data.contains '@' = true)
    ∧ (isValidOwners os = false → parseCodeownersContent b l f = some []) := by
  obtain ⟨htne, hlne⟩ := line_nonempty_of_tokens l (p :: os) hsplit (by simp)
  have hlines : jsLines l = [l] := jsLines_single l hnl
  have hval : isValidOwners os = true
      ↔ ∀ o ∈ os, jsTrim o ≠ "" ∧ o.data.contains '@' = true := by
    simp [isValidOwners, hos, List.all_eq_true, data_isEmpty_false_iff, String.ext_iff]
  have hparse : parseCodeownersContent b l f
      = some (if isValidOwners os then [⟨p, os, 1, f⟩] else []) := by
    by_cases hv : isValidOwners os
    · simp [parseCodeownersContent, hlne, hlines, parseLines, htne, hhash, hsplit, hpat,
        hos, hv]
    · simp [parseCodeownersContent, hlne, hlines, parseLines, htne, hhash, hsplit, hpat,
        hos, hv]
  constructor
  · rw [hparse]
    constructor
    · intro h
      by_cases hv : isValidOwners os
      · exact hval.mp hv
      · rw [if_neg hv] at h
        simp at h
    · intro h
      rw [if_pos (hval.mpr h)]
  · intro hv
    rw [hparse, hv]
    simp

theorem globSegs_globstar_all (ss : List (List Char)) : globSegs [['*', '*']] ss = true := by
  induction ss with
  | nil => simp [globSegs]
  | cons s ss ih => simp [globSegs, ih]

theorem segMatch_self (cs : List Char) (h : ∀ c ∈ cs, ¬c = '*' ∧ ¬c = '?') :
    segMatch cs cs = true := by
  induction cs with
  | nil => simp [segMatch]
  | cons c t ih =>
    have hc := h c (List.mem_cons_self c t)
    simp [segMatch, hc.1, hc.2, ih fun d hd => h d (List.mem_cons_of_mem c hd)]

theorem splitSlash_append (seg rest : List Char) (h : ∀ c ∈ seg, ¬c = '/') :
    splitSlash (seg ++ '/' :: rest) = seg :: splitSlash rest := by
  induction seg with
  | nil => simp [splitSlash, splitOnP]
  | cons c t ih =>
    have hc : (c == '/') = false := by simpa using h c (List.mem_cons_self c t)
    have ht := ih fun d hd => h d (List.mem_cons_of_mem c hd)
    simp only [splitSlash] at ht ⊢
    simp [splitOnP, hc, ht]

/-- C5: pattern normalization strips exactly one leading `/` and appends
`**` to a pattern ending in `/`, so a root-anchored pattern normalizes to
exactly its unanchored form (hence behaves identically for matching, which
only sees the normalized pattern), and a bare directory pattern such as
`/scripts/` becomes `scripts/**`, which the glob matcher accepts on every
path beneath `scripts/`, at any depth. -/
theorem claim_c5 (p rest : String)
    (hws : ∀ c ∈ p.data, isWs c = false)
    (hroot : jsStartsWith p "/" = false) :
    normalizePattern ("/" ++ p) = normalizePattern p
    ∧ normalizePattern "//a/" = "/a/**"
    ∧ normalizePattern "/scripts/" = "scripts/**"
    ∧ minimatchModel ("scripts/" ++ rest) (normalizePattern "/scripts/") = true := by
  refine ⟨?_, by decide, by decide, ?_⟩
  · have hdata : ("/" ++ p).data = '/' :: p.data := by
      rw [String.data_append]
      rfl
    have htrim : jsTrim ("/" ++ p) = "/" ++ p := by
      refine String.ext ?_
      show trimChars ("/" ++ p).data = ("/" ++ p).data
      rw [hdata]
      refine trimChars_eq_self _ ?_
      intro c hc
      rcases List.mem_cons.mp hc with h | h
      · subst h
        rfl
      · exact hws c h
    have htrimp : jsTrim p = p := String.ext (trimChars_eq_self _ hws)
    have hsw : jsStartsWith ("/" ++ p) "/" = true := by
      simp [jsStartsWith, hdata, List.isPrefixOf]
    have hdrop : (⟨("/" ++ p).data.drop 1⟩ : String) = p := by
      rw [hdata]
      rfl
    simp only [normalizePattern, htrim, htrimp, hsw, hroot, if_true, if_false,
      Bool.false_eq_true, ite_false, ite_true, hdrop]
  · have h3 : normalizePattern "/scripts/" = "scripts/**" := by decide
    rw [h3]
    have hcat : ("scripts/" ++ rest).data = "scripts".data ++ '/' :: rest.data := by
      rw [String.data_append]
      rfl
    have hpath : splitSlash ("scripts/" ++ rest).data
        = "scripts".data :: splitSlash rest.data := by
      rw [hcat]
      exact splitSlash_append _ _ (by decide)
    have hpat : splitSlash ("scripts/**").data = ["scripts".data, ['*', '*']] := by decide
    have hseg : segMatch "scripts".data "scripts".data = true := segMatch_self _ (by decide)
    simp only [minimatchModel, hpat, hpath]
    simp [globSegs, hseg, globSegs_globstar_all, show ¬("scripts".data = ['*', '*']) by decide]

/-- C6: the candidate list is exactly `<root>/CODEOWNERS`,
`<root>/.github/CODEOWNERS`, then the configured extra relative paths
joined to the root in configuration order; the search returns the first
candidate that exists, is a regular file and is readable (`List.find?`
semantics), and returns `none` exactly when no candidate qualifies. -/
theorem claim_c6 (fsStat : String → FileStat) (rootPath : String) (extras : List String) :
    findCodeownersFile fsStat rootPath extras
        = (codeownersCandidates rootPath extras).find? (isValidCodeownersFile fsStat)
    ∧ codeownersCandidates rootPath extras
        = [rootPath ++ "/" ++ "CODEOWNERS", rootPath ++ "/" ++ ".github" ++ "/" ++ "CODEOWNERS"]
            ++ extras.map (fun q => rootPath ++ "/" ++ q)
    ∧ (∀ q, findCodeownersFile fsStat rootPath extras = some q →
        (fsStat q).fileExists = true ∧ (fsStat q).isFile = true ∧ (fsStat q).isReadable = true)
    ∧ (findCodeownersFile fsStat rootPath extras = none
        ↔ ∀ q ∈ codeownersCandidates rootPath extras, isValidCodeownersFile fsStat q = false) := by
  have hfv : ∀ ps : List String,
      firstValidCodeownersFile fsStat ps = ps.find? (isValidCodeownersFile fsStat) := by
    intro ps
    induction ps with
    | nil => rfl
    | cons q qs ih =>
      by_cases hq : isValidCodeownersFile fsStat q
      · simp [firstValidCodeownersFile, List.find?, hq]
      · simp [firstValidCodeownersFile, List.find?, hq, ih]
  refine ⟨hfv _, rfl, ?_, ?_⟩
  · intro q hq
    rw [findCodeownersFile, hfv] at hq
    have hvalid := List.find?_some hq
    rw [isValidCodeownersFile, Bool.and_eq_true, Bool.and_eq_true] at hvalid
    exact ⟨hvalid.1.1, hvalid.1.2, hvalid.2⟩
  · rw [findCodeownersFile, hfv, List.find?_eq_none]
    constructor
    · intro h q hq
      simpa using h q hq
    · intro h q hq
      simp [h q hq]

/-- C3 counterexample: with a cached rule in place and a failing read
(`rawRead = none` while the file is found and the freshness guard passes),
the cached rules after `loadCodeowners` differ from the prior cached rules
— the prior rule set is NOT retained, contradicting the claim. -/
theorem claim_c3_counterexample :
    (loadCodeowners
        ⟨true, fun _ => ⟨true, true, true⟩, "r", [], true, some 500, none, 777⟩
        ⟨[⟨"*", ["@team"], 1, "r/CODEOWNERS"⟩], 100⟩).rules
      ≠ (⟨[⟨"*", ["@team"], 1, "r/CODEOWNERS"⟩], 100⟩ : LoaderState).rules := by decide

/-- C3 amended: when reading the rule file fails (unreadable, undecodable,
empty, or over the size cap), the cached rule set is cleared to the empty
list — `loadCodeowners` resets it before any check — while the recorded
freshness timestamp is retained unchanged; subsequent queries observe no
rules, not the prior ones. -/
theorem claim_c3_amended (env : LoadEnv) (st : LoaderState) (codeownersPath : String)
    (hw : env.workspaceValid = true)
    (hfind : findCodeownersFile env.fsStat env.rootPath env.additionalCodeownersPaths
        = some codeownersPath)
    (hreload : shouldReloadCodeowners env.currentMtime st.lastCodeownersModified = true)
    (hread : readCodeownersFile env.rawRead = none) :
    loadCodeowners env st
      = { rules := [], lastCodeownersModified := st.lastCodeownersModified } := by
  simp [loadCodeowners, hw, hfind, hreload, hread]

theorem claim_c3_amended_witness :
    loadCodeowners
        ⟨true, fun _ => ⟨true, true, true⟩, "r", [], true, some 500, none, 777⟩
        ⟨[⟨"*", ["@team"], 1, "r/CODEOWNERS"⟩], 100⟩
      = { rules := [], lastCodeownersModified := 100 } :=
  claim_c3_amended _ _ "r/CODEOWNERS" rfl (by decide) (by decide) rfl

/-- C4 counterexample: (i) with cached rules and a file mtime (50) not newer
than the recorded timestamp (100) the reload is skipped, yet the rules
after `loadCodeowners` differ from the prior rules — they were already
cleared, so the prior rule set is not retained; (ii) after a successful
parse the recorded timestamp is `Date.now()` (321), not the file's
modification time (500) observed at that parse. -/
theorem claim_c4_counterexample :
    shouldReloadCodeowners (some 50) 100 = false
    ∧ (loadCodeowners
        ⟨true, fun _ => ⟨true, true, true⟩, "r", [], true, some 50, some "* @team", 200⟩
        ⟨[⟨"*", ["@team"], 1, "r/CODEOWNERS"⟩], 100⟩).rules
        ≠ (⟨[⟨"*", ["@team"], 1, "r/CODEOWNERS"⟩], 100⟩ : LoaderState).rules
    ∧ (loadCodeowners
        ⟨true, fun _ => ⟨true, true, true⟩, "r", [], true, some 500, some "* @team", 321⟩
        ⟨[], 100⟩).lastCodeownersModified = 321
    ∧ (321 : Nat) ≠ 500 := by decide

/-- C4 amended: the loader records the wall-clock time of the last
successful parse (`Date.now()`), not the file's modification timestamp; a
reload (read + parse) is skipped whenever the file's current modification
time is not strictly newer than that recorded value, though the in-memory
rules have already been cleared by then, so only the timestamp survives a
skip; and when the modification time cannot be obtained the guard fails
open and the reload proceeds. -/
theorem claim_c4_amended (env : LoadEnv) (st : LoaderState) (t : Nat) (codeownersPath : String)
    (hw : env.workspaceValid = true)
    (hfind : findCodeownersFile env.fsStat env.rootPath env.additionalCodeownersPaths
        = some codeownersPath) :
    (env.currentMtime = none →
      shouldReloadCodeowners env.currentMtime st.lastCodeownersModified = true)
    ∧ (env.currentMtime = some t → ¬t > st.lastCodeownersModified →
      loadCodeowners env st
        = { rules := [], lastCodeownersModified := st.lastCodeownersModified })
    ∧ (∀ fileContent rules,
      shouldReloadCodeowners env.currentMtime st.lastCodeownersModified = true →
      readCodeownersFile env.rawRead = some fileContent →
      parseCodeownersContent env.allowMissingOwners fileContent codeownersPath = some rules →
      loadCodeowners env st = { rules := rules, lastCodeownersModified := env.now }) := by
  refine ⟨?_, ?_, ?_⟩
  · intro hmt
    simp [shouldReloadCodeowners, hmt]
  · intro hmt hle
    have hsr : shouldReloadCodeowners env.currentMtime st.lastCodeownersModified = false := by
      simp [shouldReloadCodeowners, hmt, hle]
    simp [loadCodeowners, hw, hfind, hsr]
  · intro fileContent rules hsr hread hparse
    simp [loadCodeowners, hw, hfind, hsr, hread, hparse]

theorem claim_c4_amended_witness :
    loadCodeowners
        ⟨true, fun _ => ⟨true, true, true⟩, "r", [], true, some 50, some "* @team", 200⟩
        ⟨[⟨"*", ["@team"], 1, "r/CODEOWNERS"⟩], 100⟩
      = { rules := [], lastCodeownersModified := 100 } :=
  (claim_c4_amended _ _ 50 "r/CODEOWNERS" rfl (by decide)).2.1 rfl (by decide)

/-! ## Witnesses -/

theorem claim_c1_witness :
    findOwners (fun _ pat => some (pat == "b"))
        [⟨"a", ["@x"], 1, "f"⟩, ⟨"b", ["@y"], 2, "f"⟩] "q" = ["@y"] := by
  have h := claim_c1 (fun _ pat => some (pat == "b"))
      [⟨"a", ["@x"], 1, "f"⟩, ⟨"b", ["@y"], 2, "f"⟩] "q" ⟨"b", ["@y"], 2, "f"⟩
      (by decide) (by decide) (by decide)
  simpa using h

theorem claim_c2_witness :
    parseCodeownersContent true "/docs/" "F" = some [⟨"/docs/", [], 1, "F"⟩]
    ∧ parseCodeownersContent false "/docs/" "F" = some []
    ∧ findOwners (fun _ _ => some true) [⟨"/docs/", [], 1, "F"⟩] "docs/readme.md"
        = ["@anyone"]
    ∧ findOwners (fun _ _ => some true) [] "docs/readme.md" = [] :=
  claim_c2 "/docs/" "/docs/" "F" "docs/readme.md" (fun _ _ => some true)
    (by decide) (by decide) (by decide) (by decide) rfl (by decide) (by decide)

theorem claim_c5_witness :
    normalizePattern ("/" ++ "src/api/**") = normalizePattern "src/api/**"
    ∧ normalizePattern "//a/" = "/a/**"
    ∧ normalizePattern "/scripts/" = "scripts/**"
    ∧ minimatchModel ("scripts/" ++ "anything/at/any/depth.txt")
        (normalizePattern "/scripts/") = true :=
  claim_c5 "src/api/**" "anything/at/any/depth.txt" (by decide) (by decide)

theorem claim_c6_witness :
    ((fun q => if q = "root/.github/CODEOWNERS" then (⟨true, true, true⟩ : FileStat)
        else ⟨false, false, false⟩) "root/.github/CODEOWNERS").fileExists = true
    ∧ ((fun q => if q = "root/.github/CODEOWNERS" then (⟨true, true, true⟩ : FileStat)
        else ⟨false, false, false⟩) "root/.github/CODEOWNERS").isFile = true
    ∧ ((fun q => if q = "root/.github/CODEOWNERS" then (⟨true, true, true⟩ : FileStat)
        else ⟨false, false, false⟩) "root/.github/CODEOWNERS").isReadable = true :=
  (claim_c6 (fun q => if q = "root/.github/CODEOWNERS" then (⟨true, true, true⟩ : FileStat)
      else ⟨false, false, false⟩) "root" []).2.2.1 "root/.github/CODEOWNERS" (by decide)

theorem claim_c7_witness :
    findOwners (fun _ _ => some true) [⟨"*", ["@x"], 1, "f"⟩] "../escape" = [] :=
  claim_c7 (fun _ _ => some true) [⟨"*", ["@x"], 1, "f"⟩] "../escape" (Or.inr (by decide))

theorem claim_c8_witness :
    findOwners (fun _ pat => if pat = "[bad" then none else some true)
        ([⟨"a", ["@x"], 1, "f"⟩] ++ (⟨"[bad", [], 2, "f"⟩ : Rule) :: []) "q"
      = findOwners (fun _ pat => if pat = "[bad" then none else some true)
        ([⟨"a", ["@x"], 1, "f"⟩] ++ []) "q" :=
  claim_c8 (fun _ pat => if pat = "[bad" then none else some true)
    [⟨"a", ["@x"], 1, "f"⟩] [] ⟨"[bad", [], 2, "f"⟩ "q" (by decide)

theorem claim_c9_witness :
    parseCodeownersContent true "* @global-team" "F"
      = some [⟨"*", ["@global-team"], 1, "F"⟩] := by
  have h := claim_c9 true "* @global-team" "*" "F" ["@global-team"]
      (by decide) (by decide) (by decide) (by decide) (by decide)
  exact h.1.mpr (by decide)

theorem claim_c10_witness :
    findOwners (fun _ _ => some true) ([] ++ (⟨"*", [], 1, "f"⟩ : Rule) :: []) "x"
      = findOwners (fun _ _ => some true) ([] ++ (⟨"*", ["@anyone"], 1, "f"⟩ : Rule) :: []) "x" :=
  (claim_c10 (fun _ _ => some true) [] "x" (by decide) (by decide)).2 [] [] "*" "f" 1

end CodeownersStatus
